import Mathlib

/-!
Verification of the AWQ quantizer core (`awq/quantize/quantizer.py`).

The numeric kernel of the quantizer is embedded shallowly over exact
rational arithmetic: torch tensors become (nested) lists of `ℚ`,
`torch.round` (round half to even) becomes `roundTE`, `torch.clamp`
becomes `iclamp`/`qclamp`, and the per-group reductions `amax`/`amin`
become structural recursions over lists.  Stateful steps (the in-place
weight mutation of the scale grid search, the sequential layer loop of
`_apply_quant`) are embedded as explicit state passing, with `Except`
modelling a raised Python exception.
-/

namespace Awq

/-- `torch.round`: round half to even, on exact rationals. -/
def roundTE (x : ℚ) : ℤ :=
  if x - ⌊x⌋ < 1/2 then ⌊x⌋
  else if 1/2 < x - ⌊x⌋ then ⌊x⌋ + 1
  else if 2 ∣ ⌊x⌋ then ⌊x⌋ else ⌊x⌋ + 1

/-- `torch.clamp(x, lo, hi)` on integers: `min(max(x, lo), hi)`. -/
def iclamp (x lo hi : ℤ) : ℤ := min (max x lo) hi

/-- `torch.clamp(x, lo, hi)` on rationals. -/
def qclamp (x lo hi : ℚ) : ℚ := min (max x lo) hi

/-- `tensor.amax(dim=1)` restricted to one row: maximum of a list
(`0` on the empty list, which never occurs in the quantizer). -/
def amax : List ℚ → ℚ
  | [] => 0
  | [x] => x
  | x :: y :: t => max x (amax (y :: t))

/-- `tensor.amin(dim=1)` restricted to one row: minimum of a list. -/
def amin : List ℚ → ℚ
  | [] => 0
  | [x] => x
  | x :: y :: t => min x (amin (y :: t))

theorem le_amax_of_mem {y : ℚ} : ∀ {l : List ℚ}, y ∈ l → y ≤ amax l
  | [], h => absurd h (List.not_mem_nil y)
  | [x], h => by
      rcases List.mem_singleton.mp h with rfl
      exact le_of_eq rfl
  | x :: z :: t, h => by
      rcases List.mem_cons.mp h with rfl | h'
      · exact le_max_left _ _
      · exact le_trans (le_amax_of_mem h') (le_max_right _ _)

theorem amin_le_of_mem {y : ℚ} : ∀ {l : List ℚ}, y ∈ l → amin l ≤ y
  | [], h => absurd h (List.not_mem_nil y)
  | [x], h => by
      rcases List.mem_singleton.mp h with rfl
      exact le_of_eq rfl
  | x :: z :: t, h => by
      rcases List.mem_cons.mp h with rfl | h'
      · exact min_le_left _ _
      · exact le_trans (min_le_right _ _) (amin_le_of_mem h')

/-- Half-to-even rounding is within `1/2` of its argument. -/
theorem abs_roundTE_sub_le (x : ℚ) : |(roundTE x : ℚ) - x| ≤ 1/2 := by
  have h0 : (⌊x⌋ : ℚ) ≤ x := Int.floor_le x
  have h1 : x - ⌊x⌋ < 1 := by
    have := Int.lt_floor_add_one x
    linarith
  unfold roundTE
  split
  · rw [abs_le]; constructor <;> push_cast <;> linarith
  · rename_i hlt
    push_neg at hlt
    split
    · rename_i hgt
      rw [abs_le]; constructor <;> push_cast <;> linarith
    · rename_i hgt
      push_neg at hgt
      have heq : x - ⌊x⌋ = 1/2 := le_antisymm hgt hlt
      split
      · rw [abs_le]; constructor <;> push_cast <;> linarith
      · rw [abs_le]; constructor <;> push_cast <;> linarith

/-- Rounding never crosses an integer upper bound. -/
theorem roundTE_le {x : ℚ} {M : ℤ} (h : x ≤ (M : ℚ)) : roundTE x ≤ M := by
  have hb := abs_roundTE_sub_le x
  rw [abs_le] at hb
  have : (roundTE x : ℚ) < (M : ℚ) + 1 := by linarith
  exact_mod_cast Int.lt_add_one_iff.mp (by exact_mod_cast this)

/-- Rounding never crosses an integer lower bound. -/
theorem le_roundTE {x : ℚ} {N : ℤ} (h : (N : ℚ) ≤ x) : N ≤ roundTE x := by
  have hb := abs_roundTE_sub_le x
  rw [abs_le] at hb
  have : (N : ℚ) - 1 < (roundTE x : ℚ) := by linarith
  have : N - 1 < roundTE x := by exact_mod_cast this
  omega

theorem iclamp_of_le {x lo hi : ℤ} (h1 : lo ≤ x) (h2 : x ≤ hi) :
    iclamp x lo hi = x := by
  unfold iclamp; omega

theorem le_iclamp (x lo hi : ℤ) (h : lo ≤ hi) : lo ≤ iclamp x lo hi := by
  unfold iclamp; omega

theorem iclamp_le (x lo hi : ℤ) (h : lo ≤ hi) : iclamp x lo hi ≤ hi := by
  unfold iclamp; omega

/-! ## `pseudo_quantize_tensor` (quantizer.py lines 75-110)

A weight matrix is reshaped into quantization groups; each group is
quantized independently.  We embed the per-group computations: in
zero-point mode `scales = clamp(max-min, min=1e-5)/max_int`,
`zeros = clamp(-round(min/scales), 0, max_int)`,
code `= clamp(round(w/scales)+zeros, 0, max_int)`, dequantized value
`= (code - zeros) * scales`; in symmetric mode
`scales = clamp(max|w|, min=1e-5)/max_int` with
`max_int = 2^(w_bit-1)-1`, `min_int = -2^(w_bit-1)`,
code `= clamp(round(w/scales), min_int, max_int)`, value
`= code * scales`. -/

/-- `max_int = 2**w_bit - 1` of zero-point mode. -/
def Mint (b : ℕ) : ℤ := 2 ^ b - 1

/-- `max_int = 2**(w_bit-1) - 1` of symmetric mode. -/
def MintSym (b : ℕ) : ℤ := 2 ^ (b - 1) - 1

/-- `min_int = -(2**(w_bit-1))` of symmetric mode. -/
def minIntSym (b : ℕ) : ℤ := -(2 ^ (b - 1))

/-- Zero-point group scale: `(max_val - min_val).clamp(min=1e-5) / max_int`. -/
def zpScales (b : ℕ) (g : List ℚ) : ℚ :=
  max (amax g - amin g) (1/100000) / (Mint b : ℚ)

/-- Zero-point group zero: `(-round(min_val / scales)).clamp(min_int, max_int)`. -/
def zpZeros (b : ℕ) (g : List ℚ) : ℤ :=
  iclamp (-(roundTE (amin g / zpScales b g))) 0 (Mint b)

/-- Zero-point integer code of one element:
`clamp(round(w / scales) + zeros, min_int, max_int)`. -/
def zpCode (b : ℕ) (g : List ℚ) (x : ℚ) : ℤ :=
  iclamp (roundTE (x / zpScales b g) + zpZeros b g) 0 (Mint b)

/-- Zero-point dequantized element: `(code - zeros) * scales`. -/
def zpDequant (b : ℕ) (g : List ℚ) (x : ℚ) : ℚ :=
  ((zpCode b g x : ℚ) - (zpZeros b g : ℚ)) * zpScales b g

/-- Symmetric group scale: `max_val.abs().amax().clamp(min=1e-5) / max_int`. -/
def symScales (b : ℕ) (g : List ℚ) : ℚ :=
  max (amax (g.map (fun v => |v|))) (1/100000) / (MintSym b : ℚ)

/-- Symmetric integer code: `clamp(round(w / scales), min_int, max_int)`. -/
def symCode (b : ℕ) (g : List ℚ) (x : ℚ) : ℤ :=
  iclamp (roundTE (x / symScales b g)) (minIntSym b) (MintSym b)

/-- Symmetric dequantized element: `code * scales`. -/
def symDequant (b : ℕ) (g : List ℚ) (x : ℚ) : ℚ :=
  (symCode b g x : ℚ) * symScales b g

/-- `pseudo_dequantize_tensor` (lines 112-126) applied to one element:
`(w - zeros) * scales` in zero-point mode, `w * scales` otherwise, with
the per-group scale/zero replicated across the group. -/
def pseudoDequantElem (code zero : ℤ) (scale : ℚ) : ℚ :=
  ((code : ℚ) - (zero : ℚ)) * scale

/-- Fuel-driven worker for `splitChunks`: peels `take k` chunks off the
front while the fuel (initialised to the list length) lasts.  Structural
recursion keeps it kernel-evaluable. -/
def splitChunksF (k : ℕ) : ℕ → List ℚ → List (List ℚ)
  | _, [] => []
  | 0, l => [l]
  | f + 1, x :: xs => ((x :: xs).take k) :: splitChunksF k f ((x :: xs).drop k)

/-- `torch.split(l, k)` / reshape `(-1, k)` on one row: chunks of size
`k`, the last possibly shorter.  `k = 0` is a degenerate guard (torch
raises there; all uses have `k > 0`). -/
def splitChunks (k : ℕ) (l : List ℚ) : List (List ℚ) :=
  if k = 0 then (match l with | [] => [] | _ => [l]) else splitChunksF k l.length l

/-- The grouping `pseudo_quantize_tensor` performs on one weight row:
`reshape(-1, group_size)` when `group_size > 0`, otherwise the row is
kept whole (one group per row). -/
def groupRow (gs : ℤ) (row : List ℚ) : List (List ℚ) :=
  if 0 < gs then splitChunks gs.toNat row else [row]

/-- One quantization group after pseudo-quantization: every element is
replaced by its dequantized value. -/
def pseudoQuantizeGroup (b : ℕ) (zp : Bool) (g : List ℚ) : List ℚ :=
  g.map (fun x => if zp then zpDequant b g x else symDequant b g x)

/-- `pseudo_quantize_tensor` on a weight matrix: group each row (the
`reshape(-1, group_size)` of the source never mixes rows because the
asserted divisibility `row length % group_size == 0` holds), quantize
each group, reshape back to the original shape. -/
def pseudoQuantizeTensor (b : ℕ) (zp : Bool) (gs : ℤ) (W : List (List ℚ)) :
    List (List ℚ) :=
  W.map (fun row => ((groupRow gs row).map (pseudoQuantizeGroup b zp)).flatten)

theorem splitChunksF_join (k : ℕ) (hk : 0 < k) :
    ∀ (f : ℕ) (l : List ℚ), l.length ≤ f → (splitChunksF k f l).flatten = l := by
  intro f
  induction f with
  | zero =>
      intro l hl
      have : l = [] := List.length_eq_zero.mp (Nat.le_zero.mp hl)
      subst this
      rfl
  | succ f ih =>
      intro l hl
      match l with
      | [] => rfl
      | x :: xs =>
          rw [splitChunksF, List.flatten_cons, ih]
          · exact List.take_append_drop k (x :: xs)
          · rw [List.length_drop]
            simp only [List.length_cons] at hl ⊢
            omega

theorem splitChunks_join (k : ℕ) (l : List ℚ) : (splitChunks k l).flatten = l := by
  unfold splitChunks
  split
  · match l with
    | [] => rfl
    | x :: xs => simp
  · exact splitChunksF_join k (by omega) l.length l le_rfl

/-- The grouping step loses no elements: re-joining the groups of a row
recovers the row. -/
theorem groupRow_join (gs : ℤ) (row : List ℚ) : (groupRow gs row).flatten = row := by
  unfold groupRow
  split
  · exact splitChunks_join _ row
  · simp


theorem zpScales_pos (b : ℕ) (hb : 1 ≤ b) (g : List ℚ) : 0 < zpScales b g := by
  have h2 : (2 : ℤ) ≤ 2 ^ b := by
    calc (2 : ℤ) = 2 ^ 1 := by norm_num
    _ ≤ 2 ^ b := pow_le_pow_right (by norm_num) hb
  have hM : (0 : ℚ) < (Mint b : ℚ) := by
    have : (1 : ℤ) ≤ Mint b := by unfold Mint; omega
    exact_mod_cast lt_of_lt_of_le zero_lt_one this
  exact div_pos (lt_max_of_lt_right (by norm_num)) hM

theorem symScales_pos (b : ℕ) (hb : 2 ≤ b) (g : List ℚ) : 0 < symScales b g := by
  have h2 : (2 : ℤ) ≤ 2 ^ (b - 1) := by
    calc (2 : ℤ) = 2 ^ 1 := by norm_num
    _ ≤ 2 ^ (b - 1) := pow_le_pow_right (by norm_num) (by omega)
  have hM : (0 : ℚ) < (MintSym b : ℚ) := by
    have : (1 : ℤ) ≤ MintSym b := by unfold MintSym; omega
    exact_mod_cast lt_of_lt_of_le zero_lt_one this
  exact div_pos (lt_max_of_lt_right (by norm_num)) hM

/-- Core rounding bound, zero-point mode: when the group straddles zero
(`amin ≤ 0 ≤ amax`), every element's dequantized value is within half
the group scale of the original. -/
theorem zpDequant_sub_le (b : ℕ) (hb : 1 ≤ b) (g : List ℚ) (x : ℚ) (hx : x ∈ g)
    (hmin : amin g ≤ 0) (hmax : 0 ≤ amax g) :
    |zpDequant b g x - x| ≤ zpScales b g / 2 := by
  have h2 : (2 : ℤ) ≤ 2 ^ b := by
    calc (2 : ℤ) = 2 ^ 1 := by norm_num
    _ ≤ 2 ^ b := pow_le_pow_right₀ (by norm_num) hb
  have hMi : (1 : ℤ) ≤ Mint b := by unfold Mint; omega
  have hMq : (1 : ℚ) ≤ (Mint b : ℚ) := by exact_mod_cast hMi
  set s := zpScales b g with hs
  have hspos : 0 < s := zpScales_pos b hb g
  have hsM : s * (Mint b : ℚ) = max (amax g - amin g) (1/100000) := by
    rw [hs]; unfold zpScales
    field_simp
  have hkey : amax g - amin g ≤ s * (Mint b : ℚ) := by
    rw [hsM]; exact le_max_left _ _
  -- the zero offset is not clamped
  have hz1 : amin g / s ≤ 0 := by
    rw [div_nonpos_iff]; right; exact ⟨hmin, hspos.le⟩
  have hr_le : roundTE (amin g / s) ≤ 0 := roundTE_le (by exact_mod_cast hz1)
  have hz2 : (-(Mint b) : ℚ) ≤ amin g / s := by
    rw [le_div_iff hspos]
    nlinarith
  have hr_ge : -(Mint b) ≤ roundTE (amin g / s) := le_roundTE (by push_cast; exact hz2)
  have hzeros : zpZeros b g = -(roundTE (amin g / s)) := by
    unfold zpZeros; rw [← hs]
    exact iclamp_of_le (by omega) (by omega)
  have hzb := abs_roundTE_sub_le (amin g / s)
  rw [abs_le] at hzb
  have hzq1 : amin g / s ≤ -((zpZeros b g : ℤ) : ℚ) + 1/2 := by
    rw [hzeros]; push_cast; linarith [hzb.1]
  have hzq2 : -((zpZeros b g : ℤ) : ℚ) - 1/2 ≤ amin g / s := by
    rw [hzeros]; push_cast; linarith [hzb.2]
  -- bounds from membership
  have hxmin : amin g ≤ x := amin_le_of_mem hx
  have hxmax : x ≤ amax g := le_amax_of_mem hx
  have hru := abs_roundTE_sub_le (x / s)
  rw [abs_le] at hru
  have humin : amin g / s ≤ x / s := by gcongr
  have humax : x / s ≤ amax g / s := by gcongr
  have hdiff : (amax g - amin g) / s ≤ (Mint b : ℚ) := by
    rw [div_le_iff hspos]; nlinarith
  have humax2 : x / s ≤ (Mint b : ℚ) + amin g / s := by
    rw [sub_div] at hdiff; linarith
  have hcode : zpCode b g x = iclamp (roundTE (x / s) + zpZeros b g) 0 (Mint b) := by
    unfold zpCode; rw [← hs]
  have habs_bound : ∀ c : ℤ, zpCode b g x = c →
      |(c : ℚ) - ((zpZeros b g : ℤ) : ℚ) - x / s| ≤ 1/2 →
      |zpDequant b g x - x| ≤ s / 2 := by
    intro c hc hbnd
    unfold zpDequant
    rw [hc, ← hs]
    have heq : ((c : ℚ) - ((zpZeros b g : ℤ) : ℚ)) * s - x
        = ((c : ℚ) - ((zpZeros b g : ℤ) : ℚ) - x / s) * s := by
      have hxe : x / s * s = x := div_mul_cancel₀ x hspos.ne'
      linear_combination hxe
    rw [heq, abs_mul, abs_of_pos hspos]
    calc |(c : ℚ) - ((zpZeros b g : ℤ) : ℚ) - x / s| * s ≤ (1/2) * s :=
          mul_le_mul_of_nonneg_right hbnd hspos.le
    _ = s / 2 := by ring
  rcases le_or_lt 0 (roundTE (x / s) + zpZeros b g) with h0 | h0
  · rcases le_or_lt (roundTE (x / s) + zpZeros b g) (Mint b) with hM' | hM'
    · -- no clamping: the code is round(x/s) + zeros
      refine habs_bound (roundTE (x / s) + zpZeros b g)
        (by rw [hcode]; exact iclamp_of_le h0 hM') ?_
      have h1 : ((roundTE (x / s) + zpZeros b g : ℤ) : ℚ)
          = (roundTE (x / s) : ℚ) + ((zpZeros b g : ℤ) : ℚ) := by push_cast; ring
      rw [h1, abs_le]
      constructor <;> linarith [hru.1, hru.2]
    · -- clamped above at max_int
      refine habs_bound (Mint b) (by rw [hcode]; unfold iclamp; omega) ?_
      have h1 : (Mint b : ℚ) + 1 ≤ (roundTE (x / s) : ℚ) + ((zpZeros b g : ℤ) : ℚ) := by
        exact_mod_cast (by omega : Mint b + 1 ≤ roundTE (x / s) + zpZeros b g)
      rw [abs_le]; constructor <;> linarith [hru.1, hru.2, hzq1, humax2]
  · -- clamped below at 0
    refine habs_bound 0 (by rw [hcode]; unfold iclamp; omega) ?_
    have h1 : (roundTE (x / s) : ℚ) + ((zpZeros b g : ℤ) : ℚ) ≤ -1 := by
      exact_mod_cast (by omega : roundTE (x / s) + zpZeros b g ≤ -1)
    rw [abs_le]; constructor <;> linarith [hru.1, hru.2, hzq2, humin]

/-- Core rounding bound, symmetric mode: every element's dequantized
value is within half the group scale of the original, unconditionally. -/
theorem symDequant_sub_le (b : ℕ) (hb : 2 ≤ b) (g : List ℚ) (x : ℚ) (hx : x ∈ g) :
    |symDequant b g x - x| ≤ symScales b g / 2 := by
  have h2 : (2 : ℤ) ≤ 2 ^ (b - 1) := by
    calc (2 : ℤ) = 2 ^ 1 := by norm_num
    _ ≤ 2 ^ (b - 1) := pow_le_pow_right₀ (by norm_num) (by omega)
  have hMi : (1 : ℤ) ≤ MintSym b := by unfold MintSym; omega
  have hlo : minIntSym b ≤ -(MintSym b) := by unfold minIntSym MintSym; omega
  set s := symScales b g with hs
  have hspos : 0 < s := symScales_pos b hb g
  have hsM : s * (MintSym b : ℚ) = max (amax (g.map (fun v => |v|))) (1/100000) := by
    rw [hs]; unfold symScales
    field_simp
  have habs : |x| ≤ amax (g.map (fun v => |v|)) :=
    le_amax_of_mem (List.mem_map_of_mem _ hx)
  have hkey : |x| ≤ s * (MintSym b : ℚ) := by
    rw [hsM]; exact le_trans habs (le_max_left _ _)
  have hub : x / s ≤ ((MintSym b : ℤ) : ℚ) := by
    rw [div_le_iff hspos]
    nlinarith [le_abs_self x]
  have hlb : (-(MintSym b) : ℚ) ≤ x / s := by
    rw [le_div_iff hspos]
    nlinarith [neg_abs_le x]
  have hr_le : roundTE (x / s) ≤ MintSym b := roundTE_le hub
  have hr_ge : -(MintSym b) ≤ roundTE (x / s) := le_roundTE (by push_cast; exact hlb)
  have hcode : symCode b g x = roundTE (x / s) := by
    unfold symCode; rw [← hs]
    exact iclamp_of_le (by omega) hr_le
  have hru := abs_roundTE_sub_le (x / s)
  unfold symDequant
  rw [hcode, ← hs]
  have heq : (roundTE (x / s) : ℚ) * s - x = ((roundTE (x / s) : ℚ) - x / s) * s := by
    rw [sub_mul, div_mul_cancel₀ x hspos.ne']
  rw [heq, abs_mul, abs_of_pos hspos]
  calc |(roundTE (x / s) : ℚ) - x / s| * s ≤ (1/2) * s :=
        mul_le_mul_of_nonneg_right hru hspos.le
  _ = symScales b g / 2 := by rw [← hs]; ring

/-- **C1** (amended): for every weight row and the grouping
`pseudo_quantize_tensor` performs on it (row length divisible by
`group_size`, or whole-row groups when `group_size ≤ 0`), the
dequantized output differs from the input by at most half the group's
scale element-wise — unconditionally in symmetric mode, and in
zero-point mode for every group whose value range straddles zero
(`amin ≤ 0 ≤ amax`).  The dequantized value coincides with
`pseudo_dequantize_tensor` applied to the produced code, zero and
scale. -/
theorem pseudo_quantize_roundtrip_bound (b : ℕ) (hb : 2 ≤ b) (gs : ℤ) (row : List ℚ) :
    (groupRow gs row).flatten = row ∧
    ∀ g ∈ groupRow gs row, ∀ x ∈ g,
      pseudoQuantizeGroup b false g = g.map (symDequant b g) ∧
      pseudoQuantizeGroup b true g = g.map (zpDequant b g) ∧
      zpDequant b g x = pseudoDequantElem (zpCode b g x) (zpZeros b g) (zpScales b g) ∧
      |symDequant b g x - x| ≤ symScales b g / 2 ∧
      (amin g ≤ 0 → 0 ≤ amax g → |zpDequant b g x - x| ≤ zpScales b g / 2) := by
  refine ⟨groupRow_join gs row, ?_⟩
  intro g _ x hx
  exact ⟨rfl, rfl, rfl, symDequant_sub_le b hb g x hx,
    fun hmin hmax => zpDequant_sub_le b (by omega) g x hx hmin hmax⟩

/-- Witness for C1: a concrete instantiation on the row `[-1, 2, 3, -4]`
with `w_bit = 4`, `group_size = 2`, group `[-1, 2]`, element `2`. -/
theorem pseudo_quantize_roundtrip_bound_witness :
    |zpDequant 4 [-1, 2] 2 - 2| ≤ zpScales 4 [-1, 2] / 2 ∧
    |symDequant 4 [-1, 2] 2 - 2| ≤ symScales 4 [-1, 2] / 2 := by
  have h := (pseudo_quantize_roundtrip_bound 4 (by norm_num) 2 [-1, 2, 3, -4]).2
    [-1, 2] (by decide) 2 (by decide)
  exact ⟨h.2.2.2.2 (by decide) (by decide), h.2.2.2.1⟩

/-- Counterexample for C1 as stated: in zero-point mode a group that
does not straddle zero breaks the half-scale bound.  With `w_bit = 4`
and group `[10, 11]` the scale is `1/15` and both elements dequantize
to `1`, an error of `10` ≫ `1/30`. -/
theorem pseudo_quantize_roundtrip_bound_counterexample :
    pseudoQuantizeTensor 4 true 2 [[10, 11]] = [[1, 1]] ∧
    ¬ |zpDequant 4 [10, 11] 11 - 11| ≤ zpScales 4 [10, 11] / 2 := by
  constructor
  · norm_num [pseudoQuantizeTensor, groupRow, splitChunks, splitChunksF, pseudoQuantizeGroup,
      zpDequant, zpCode, zpZeros, zpScales, amax, amin, Mint, iclamp, roundTE]
  · norm_num [zpDequant, zpCode, zpZeros, zpScales, amax, amin, Mint, iclamp, roundTE]

/-- **C6**: the integer codes formed inside `pseudo_quantize_tensor`
always lie in `[min_int, max_int]`: `[0, 2^w_bit - 1]` in zero-point
mode and `[-2^(w_bit-1), 2^(w_bit-1) - 1]` in symmetric mode, for every
group (hence every generated scale) and every input element. -/
theorem pseudo_quantize_codes_in_range (b : ℕ) (hb : 2 ≤ b) (g : List ℚ) (x : ℚ) :
    (0 ≤ zpCode b g x ∧ zpCode b g x ≤ 2 ^ b - 1) ∧
    (-(2 ^ (b - 1)) ≤ symCode b g x ∧ symCode b g x ≤ 2 ^ (b - 1) - 1) := by
  have h2 : (2 : ℤ) ≤ 2 ^ b := by
    calc (2 : ℤ) = 2 ^ 1 := by norm_num
    _ ≤ 2 ^ b := pow_le_pow_right₀ (by norm_num) (by omega)
  have h2s : (2 : ℤ) ≤ 2 ^ (b - 1) := by
    calc (2 : ℤ) = 2 ^ 1 := by norm_num
    _ ≤ 2 ^ (b - 1) := pow_le_pow_right₀ (by norm_num) (by omega)
  refine ⟨⟨?_, ?_⟩, ?_, ?_⟩
  · have h := le_iclamp (roundTE (x / zpScales b g) + zpZeros b g) 0 (Mint b)
      (by unfold Mint; omega)
    unfold zpCode
    exact h
  · have h := iclamp_le (roundTE (x / zpScales b g) + zpZeros b g) 0 (Mint b)
      (by unfold Mint; omega)
    unfold Mint at h
    unfold zpCode Mint
    exact h
  · have h := le_iclamp (roundTE (x / symScales b g)) (minIntSym b) (MintSym b)
      (by unfold minIntSym MintSym; omega)
    unfold minIntSym at h
    unfold symCode minIntSym
    exact h
  · have h := iclamp_le (roundTE (x / symScales b g)) (minIntSym b) (MintSym b)
      (by unfold minIntSym MintSym; omega)
    unfold MintSym at h
    unfold symCode MintSym
    exact h

/-- Witness for C6 at `w_bit = 4`, group `[1, 2]`, element `5`. -/
theorem pseudo_quantize_codes_in_range_witness :
    0 ≤ zpCode 4 [1, 2] 5 ∧ zpCode 4 [1, 2] 5 ≤ 2 ^ 4 - 1 :=
  ⟨(pseudo_quantize_codes_in_range 4 (by norm_num) [1, 2] 5).1.1,
   (pseudo_quantize_codes_in_range 4 (by norm_num) [1, 2] 5).1.2⟩

/-! ## `_apply_quant` (quantizer.py lines 204-245)

For each named linear layer, in order: the layer's weight storage is
overwritten with its pseudo-quantized value, then the configured
`version` tag is dispatched to a packed-kernel class, raising
`ValueError` on an unrecognized tag.  The raised state (an `Except`
error) carries the weight storage of every layer at the moment of the
raise. -/

/-- The four packed-kernel classes selected by `version`. -/
inductive PackKind where
  | gemm
  | gemv
  | marlin
  | gemvFast
deriving DecidableEq

/-- The `version` dispatch chain of `_apply_quant`. -/
def versionDispatch (v : String) : Option PackKind :=
  if v = "gemm" then some .gemm
  else if v = "gemv" then some .gemv
  else if v = "marlin" then some .marlin
  else if v = "gemv_fast" then some .gemvFast
  else none

/-- `_apply_quant` over the ordered list of linear-layer weights.  The
error payload is the list of all weight storages at the moment
`ValueError` is raised; the success payload pairs each layer's
quantized weight with its packed-kernel class. -/
def applyQuant (v : String) (b : ℕ) (zp : Bool) (gs : ℤ) :
    List (List (List ℚ)) →
      Except (List (List (List ℚ))) (List (PackKind × List (List ℚ)))
  | [] => .ok []
  | w :: rest =>
    let qw := pseudoQuantizeTensor b zp gs w
    match versionDispatch v with
    | none => .error (qw :: rest)
    | some k =>
      match applyQuant v b zp gs rest with
      | .error st => .error (qw :: st)
      | .ok packed => .ok ((k, qw) :: packed)

/-- **C2** (amended): with an unrecognized `version` tag, `_apply_quant`
does raise `ValueError` while processing the first layer — but only
after that layer's weight storage has already been overwritten with its
pseudo-quantized value (`linear_layer.weight.data` is reassigned before
the version dispatch); the remaining layers are untouched. -/
theorem apply_quant_unknown_version (v : String) (hv : versionDispatch v = none)
    (b : ℕ) (zp : Bool) (gs : ℤ) (w : List (List ℚ)) (rest : List (List (List ℚ))) :
    applyQuant v b zp gs (w :: rest) = .error (pseudoQuantizeTensor b zp gs w :: rest) := by
  unfold applyQuant
  rw [hv]

/-- Witness for C2: the tag `"foo"` raises on a one-layer module. -/
theorem apply_quant_unknown_version_witness :
    applyQuant "foo" 2 true 0 [[[0, 1, 10]]]
      = .error [pseudoQuantizeTensor 2 true 0 [[0, 1, 10]]] :=
  apply_quant_unknown_version "foo" rfl 2 true 0 [[0, 1, 10]] []

/-- Counterexample for C2 as stated: at the moment the error is raised
the first layer's weight storage no longer equals its original value
(`[[0, 1, 10]]` has become `[[0, 0, 10]]`), so the raise does not happen
before any weight mutation. -/
theorem apply_quant_unknown_version_counterexample :
    applyQuant "foo" 2 true 0 [[[0, 1, 10]]] = .error [[[0, 0, 10]]] ∧
    ([[0, 0, 10]] : List (List ℚ)) ≠ [[0, 1, 10]] := by
  have h1 : versionDispatch "foo" = none := by simp [versionDispatch]
  have e0 : zpDequant 2 [0, 1, 10] 0 = 0 := by
    norm_num [zpDequant, zpCode, zpZeros, zpScales, amax, amin, Mint, iclamp, roundTE]
  have e1 : zpDequant 2 [0, 1, 10] 1 = 0 := by
    norm_num [zpDequant, zpCode, zpZeros, zpScales, amax, amin, Mint, iclamp, roundTE]
  have e2 : zpDequant 2 [0, 1, 10] 10 = 10 := by
    norm_num [zpDequant, zpCode, zpZeros, zpScales, amax, amin, Mint, iclamp, roundTE]
  have h2 : pseudoQuantizeTensor 2 true 0 [[0, 1, 10]] = [[0, 0, 10]] := by
    simp [pseudoQuantizeTensor, groupRow, pseudoQuantizeGroup, e0, e1, e2]
  refine ⟨?_, by decide⟩
  rw [apply_quant_unknown_version "foo" h1, h2]

/-! ## `group_size ≤ 0` handling across the three grouping sites (C3)

`pseudo_quantize_tensor` (line 77) and `_compute_best_clip` (line 503)
special-case `group_size ≤ 0`; `_search_best_scale` (line 307) does
`weight.view(-1, self.group_size)` with no special case, which torch
rejects for a non-positive dimension (RuntimeError), modelled as
`none`. -/

/-- The `weight.view(-1, self.group_size)` of `_search_best_scale`
(line 307): succeeds only for a positive group size dividing the number
of elements, as torch's `view` requires. -/
def searchScaleGroups (gs : ℤ) (W : List (List ℚ)) : Option (List (List ℚ)) :=
  if 0 < gs ∧ gs.toNat ∣ W.flatten.length then some (splitChunks gs.toNat W.flatten)
  else none

/-- The per-group weight normalization of `_search_best_scale` (line
310): `w_scale = |w| / (amax |w| + 1e-6)` per group, downstream of the
`view`. -/
def searchScaleWScale (gs : ℤ) (W : List (List ℚ)) : Option (List (List ℚ)) :=
  (searchScaleGroups gs W).map
    (List.map (fun g => g.map (fun x => |x| / (amax (g.map (fun v => |v|)) + 1/1000000))))

/-- The group size used by `_compute_best_clip` (line 503):
`self.group_size if self.group_size > 0 else org_w_shape[1]`. -/
def clipGroupSize (gs : ℤ) (cols : ℕ) : ℕ :=
  if 0 < gs then gs.toNat else cols

/-- **C3**: for `group_size ≤ 0`, `pseudo_quantize_tensor` and the clip
search both fall back to whole-row groups, but the scale search's
`weight.view(-1, group_size)` fails (torch RuntimeError, modelled as
`none`) instead of treating the row as one group — the claimed
"completes without error" is violated at that site. -/
theorem group_size_nonpositive_behavior (gs : ℤ) (hgs : gs ≤ 0) :
    (∀ row : List ℚ, groupRow gs row = [row]) ∧
    (∀ cols : ℕ, clipGroupSize gs cols = cols) ∧
    (∀ W : List (List ℚ), searchScaleWScale gs W = none) := by
  refine ⟨?_, ?_, ?_⟩
  · intro row
    unfold groupRow
    rw [if_neg (by omega)]
  · intro cols
    unfold clipGroupSize
    rw [if_neg (by omega)]
  · intro W
    unfold searchScaleWScale searchScaleGroups
    rw [if_neg (by omega)]
    rfl

/-- Witness for C3 at `group_size = 0` on the matrix `[[1, 2], [3, 4]]`. -/
theorem group_size_nonpositive_behavior_witness :
    groupRow 0 [1, 2] = [[1, 2]] ∧ clipGroupSize 0 2 = 2 ∧
    searchScaleWScale 0 [[1, 2], [3, 4]] = none :=
  ⟨(group_size_nonpositive_behavior 0 le_rfl).1 [1, 2],
   (group_size_nonpositive_behavior 0 le_rfl).2.1 2,
   (group_size_nonpositive_behavior 0 le_rfl).2.2 [[1, 2], [3, 4]]⟩

/-! ## `_compute_best_clip` output-channel batching (lines 511-514, C10) -/

/-- `oc_batch_size = 256 if org_w_shape[0] % 256 == 0 else 64`. -/
def ocBatchSize (co : ℕ) : ℕ := if co % 256 = 0 then 256 else 64

/-- The guard `assert org_w_shape[0] % oc_batch_size == 0` of
`_compute_best_clip`. -/
def clipAssertOk (co : ℕ) : Prop := co % ocBatchSize co = 0

instance (co : ℕ) : Decidable (clipAssertOk co) := by
  unfold clipAssertOk; infer_instance

/-- **C10**: the clip search processes output channels in blocks of 256
when 256 divides the channel count and otherwise 64, and its assertion
passes exactly when the channel count is divisible by 64 — any other
channel count aborts with an assertion failure. -/
theorem clip_batch_assert (co : ℕ) :
    (co % 256 = 0 → ocBatchSize co = 256) ∧
    (co % 256 ≠ 0 → ocBatchSize co = 64) ∧
    (clipAssertOk co ↔ co % 64 = 0) := by
  unfold clipAssertOk ocBatchSize
  refine ⟨fun h => by rw [if_pos h], fun h => by rw [if_neg h], ?_⟩
  split
  · rename_i h
    omega
  · exact Iff.rfl

/-- Witness for C10: 512 channels use blocks of 256; 100 channels
(not a multiple of 64) fail the assertion. -/
theorem clip_batch_assert_witness :
    ocBatchSize 512 = 256 ∧ ¬ clipAssertOk 100 :=
  ⟨(clip_batch_assert 512).1 (by norm_num),
   fun h => by have := (clip_batch_assert 100).2.2.mp h; omega⟩

/-! ## `_compute_loss` (quantizer.py lines 432-469, C9)

Both outputs are flattened, split into chunks of `chunk_size`
(`torch.split`), the squared differences are summed chunk by chunk in a
higher-precision accumulator (exact here), and the total is divided by
the element count. -/

/-- `((a - b).pow(2)).sum()` on flat (already aligned) tensors. -/
def sqDiffSum (a b : List ℚ) : ℚ :=
  (List.zipWith (fun x y => (x - y) ^ 2) a b).sum

/-- `_compute_loss`: chunked accumulation of the squared error followed
by normalization with the total element count. -/
def computeLoss (cs : ℕ) (a b : List ℚ) : ℚ :=
  ((((splitChunks cs a).zip (splitChunks cs b)).map
    (fun p => sqDiffSum p.1 p.2)).sum) / (a.length : ℚ)

/-- The unchunked reference computation `sum((a-b)^2) / n`. -/
def refLoss (a b : List ℚ) : ℚ := sqDiffSum a b / (a.length : ℚ)

theorem sqDiffSum_take_drop (k : ℕ) (a b : List ℚ) :
    sqDiffSum (a.take k) (b.take k) + sqDiffSum (a.drop k) (b.drop k)
      = sqDiffSum a b := by
  unfold sqDiffSum
  rw [← List.take_zipWith, ← List.drop_zipWith, ← List.sum_append,
    List.take_append_drop]

theorem splitChunksF_pair_sum (k : ℕ) (hk : 0 < k) :
    ∀ (f : ℕ) (a b : List ℚ), a.length ≤ f → a.length = b.length →
      (((splitChunksF k f a).zip (splitChunksF k f b)).map
        (fun p => sqDiffSum p.1 p.2)).sum = sqDiffSum a b := by
  intro f
  induction f with
  | zero =>
      intro a b ha hab
      have ha' : a = [] := List.length_eq_zero.mp (Nat.le_zero.mp ha)
      have hb' : b = [] := List.length_eq_zero.mp (by omega)
      subst ha'; subst hb'
      rfl
  | succ f ih =>
      intro a b ha hab
      match a, b with
      | [], b =>
          have hb' : b = [] := List.length_eq_zero.mp (by simpa using hab.symm)
          subst hb'
          rfl
      | x :: xs, [] => simp at hab
      | x :: xs, y :: ys =>
          rw [splitChunksF, splitChunksF, List.zip_cons_cons, List.map_cons,
            List.sum_cons, ih]
          · exact sqDiffSum_take_drop k (x :: xs) (y :: ys)
          · rw [List.length_drop]
            simp only [List.length_cons] at ha ⊢
            omega
          · rw [List.length_drop, List.length_drop]
            simp only [List.length_cons] at hab ⊢
            omega

/-- **C9**: for equal-length flat tensors and any positive chunk size,
the chunked loss of `_compute_loss` equals the unchunked reference
`sum((a-b)^2)/n` exactly, independent of the chunk size. -/
theorem compute_loss_chunk_invariant (cs : ℕ) (hcs : 0 < cs) (a b : List ℚ)
    (hab : a.length = b.length) : computeLoss cs a b = refLoss a b := by
  unfold computeLoss refLoss
  congr 1
  unfold splitChunks
  rw [if_neg (by omega), if_neg (by omega), ← hab]
  exact splitChunksF_pair_sum cs hcs a.length a b le_rfl hab

/-- Witness for C9 on `a = [1, 2, 3]`, `b = [0, 0, 0]` with three
distinct chunk sizes. -/
theorem compute_loss_chunk_invariant_witness :
    computeLoss 1 [1, 2, 3] [0, 0, 0] = refLoss [1, 2, 3] [0, 0, 0] ∧
    computeLoss 2 [1, 2, 3] [0, 0, 0] = refLoss [1, 2, 3] [0, 0, 0] ∧
    computeLoss 3 [1, 2, 3] [0, 0, 0] = refLoss [1, 2, 3] [0, 0, 0] :=
  ⟨compute_loss_chunk_invariant 1 (by norm_num) [1, 2, 3] [0, 0, 0] rfl,
   compute_loss_chunk_invariant 2 (by norm_num) [1, 2, 3] [0, 0, 0] rfl,
   compute_loss_chunk_invariant 3 (by norm_num) [1, 2, 3] [0, 0, 0] rfl⟩

/-! ## `_compute_best_clip` inner grid search (quantizer.py lines 490-549, C4)

For one output channel and one quantization group, the shrink grid
`i_s = 0..int(max_shrink*n_grid)-1 = 0..9` scores the clipped-and-
quantized output against the unclipped full-precision reference and
keeps the best-seen candidate.  The running state `(min_err, best_idx)`
starts at `(1e9, 0)`; `best_idx = 0` corresponds to the initialisation
`best_max_val = org_max_val`, the threshold of shrink factor 0. -/

/-- The measured squared error of shrink step `i` for weight group `w`
and token features `feats` (one list per sampled token): clamp `w` to
`± org_max*(1 - i/20)`, pseudo-quantize, recompute the group's partial
output per token and average the squared deviation from the unclipped
full-precision output (`err = (cur_out - org_out).pow(2).mean(dim=1)`). -/
def clipErr (b : ℕ) (zp : Bool) (w : List ℚ) (feats : List (List ℚ)) (i : ℕ) : ℚ :=
  let mv := (1 - (i : ℚ) / 20) * amax (w.map (fun v => |v|))
  let curW := w.map (fun v => qclamp v (-mv) mv)
  let qW := pseudoQuantizeGroup b zp curW
  let orgOut := feats.map (fun t => (List.zipWith (fun u v => u * v) t w).sum)
  let curOut := feats.map (fun t => (List.zipWith (fun u v => u * v) t qW).sum)
  (List.zipWith (fun u v => (u - v) ^ 2) curOut orgOut).sum / (feats.length : ℚ)

/-- One step of the clip grid search: keep the candidate if its error
improves on the running best (`cur_best_idx = err < min_errs`). -/
def clipStep (err : ℕ → ℚ) (st : ℚ × ℕ) (i : ℕ) : ℚ × ℕ :=
  if err i < st.1 then (err i, i) else st

/-- The clip grid search over `n` shrink steps, starting from
`min_errs = 1e9` and `best_max_val = org_max_val` (index 0). -/
def bestClipRun (err : ℕ → ℚ) (n : ℕ) : ℚ × ℕ :=
  (List.range n).foldl (clipStep err) (10 ^ 9, 0)

theorem bestClipRun_succ (err : ℕ → ℚ) (n : ℕ) :
    bestClipRun err (n + 1) = clipStep err (bestClipRun err n) n := by
  unfold bestClipRun
  rw [List.range_succ, List.foldl_append, List.foldl_cons, List.foldl_nil]

theorem bestClipRun_invariant (err : ℕ → ℚ) (n : ℕ) (hn : 0 < n) :
    ((bestClipRun err n).1 = err (bestClipRun err n).2 ∧
      (bestClipRun err n).1 ≤ err 0) ∨
    (bestClipRun err n = (10 ^ 9, 0) ∧ (10 : ℚ) ^ 9 ≤ err 0) := by
  induction n with
  | zero => omega
  | succ n ih =>
      rcases Nat.eq_zero_or_pos n with rfl | hn'
      · rw [bestClipRun_succ]
        unfold bestClipRun clipStep
        simp only [List.range_zero, List.foldl_nil]
        split
        · rename_i h
          exact Or.inl ⟨rfl, le_refl _⟩
        · rename_i h
          exact Or.inr ⟨rfl, not_lt.mp h⟩
      · rw [bestClipRun_succ]
        unfold clipStep
        split
        · rename_i h
          rcases ih hn' with ⟨h1, h2⟩ | ⟨h1, h2⟩
          · exact Or.inl ⟨rfl, le_of_lt (lt_of_lt_of_le h h2)⟩
          · rw [h1] at h
            exact Or.inl ⟨rfl, le_of_lt (lt_of_lt_of_le h h2)⟩
        · exact ih hn'

/-- **C4**: the clip grid search never returns a candidate whose
measured error exceeds that of the shrink-factor-0 (unclipped)
candidate, and the running best error never increases from one grid
step to the next — stated for the concrete per-channel error `clipErr`
and the source's 10-step grid. -/
theorem clip_search_never_regresses (b : ℕ) (zp : Bool) (w : List ℚ)
    (feats : List (List ℚ)) :
    clipErr b zp w feats (bestClipRun (clipErr b zp w feats) 10).2
        ≤ clipErr b zp w feats 0 ∧
    ∀ k : ℕ, (bestClipRun (clipErr b zp w feats) (k + 1)).1
        ≤ (bestClipRun (clipErr b zp w feats) k).1 := by
  constructor
  · rcases bestClipRun_invariant (clipErr b zp w feats) 10 (by norm_num) with
      ⟨h1, h2⟩ | ⟨h1, h2⟩
    · rw [← h1]; exact h2
    · rw [h1]
  · intro k
    rw [bestClipRun_succ]
    unfold clipStep
    split
    · rename_i h
      exact le_of_lt h
    · exact le_refl _

/-! ## `_compute_best_scale` trial mutation and restore (lines 355-430, C5)

Each grid trial multiplies every target linear's weight in place by the
candidate scales (`fc.weight.mul_(scales_view)`, line 405), rebinds the
weight to the pseudo-quantized value divided by the scales (line 406, a
freshly allocated tensor), runs the forward pass on that state, and
then executes `module2inspect.load_state_dict(org_sd)` (line 421).

The snapshot `org_sd = {k: v.cpu() for k, v in
module2inspect.state_dict().items()}` (line 380) is not always an
independent copy: `state_dict()` returns the live parameter tensors,
and `.cpu()` is the identity on a tensor already resident on CPU.  The
no-accelerator fallback of `quantize` (lines 131-138) leaves the module
on CPU, and on that path the snapshot aliases the live weight storage.

The machine state is therefore `(cur, snap, shared)`: the live target
weights, the snapshot entries for them, and whether the two still share
storage.  The in-place `mul_` writes through the alias when `shared`
holds; the rebinding of `fc.weight.data` gives the live weight fresh
storage, so `shared` is `false` from the end of the first iteration on;
`load_state_dict` copies the snapshot's current values into the (fresh)
parameter storage.  `org_sd` entries for non-target parameters are
never written in place, so they restore unchanged on both paths and are
omitted from the state. -/

/-- Broadcast column scaling `fc.weight.mul_(scales_view)`:
row-wise elementwise product with the scale vector. -/
def scaleCols (s : List ℚ) (W : List (List ℚ)) : List (List ℚ) :=
  W.map (fun row => List.zipWith (fun wv sv => wv * sv) row s)

/-- Broadcast column division `... / scales_view`. -/
def unscaleCols (s : List ℚ) (W : List (List ℚ)) : List (List ℚ) :=
  W.map (fun row => List.zipWith (fun wv sv => wv / sv) row s)

/-- One trial's intended weight mutation:
`pseudo_quantize_tensor(W * s)[0] / s`. -/
def trialMutate (b : ℕ) (zp : Bool) (gs : ℤ) (s : List ℚ) (W : List (List ℚ)) :
    List (List ℚ) :=
  unscaleCols s (pseudoQuantizeTensor b zp gs (scaleCols s W))

/-- One grid iteration on the machine state: the in-place `mul_` scales
the live weights and, when the snapshot still shares their storage,
writes through to it; the `fc.weight.data = ... / scales_view`
rebinding produces the state the forward pass observes (recorded in the
trace) and makes the live storage fresh; `load_state_dict(org_sd)`
then copies the snapshot's current values back. -/
def gridStepA (b : ℕ) (zp : Bool) (gs : ℤ) (scalesOf : ℕ → List ℚ)
    (st : (List (List (List ℚ)) × List (List (List ℚ)) × Bool)
      × List (List (List (List ℚ)))) (k : ℕ) :
    (List (List (List ℚ)) × List (List (List ℚ)) × Bool)
      × List (List (List (List ℚ))) :=
  let s := scalesOf k
  let mulRes := st.1.1.map (scaleCols s)
  let snap1 := if st.1.2.2 then mulRes else st.1.2.1
  let trial := mulRes.map (fun W => unscaleCols s (pseudoQuantizeTensor b zp gs W))
  ((snap1, snap1, false), st.2 ++ [trial])

/-- The whole grid loop: `org_sd` is taken from the live weights on
entry (`aliased` says whether `v.cpu()` returned the same storage, i.e.
whether the module resides on CPU); returns the final machine state and
the list of weight states the trials' forward passes observed. -/
def runGridA (b : ℕ) (zp : Bool) (gs : ℤ) (orgT : List (List (List ℚ)))
    (aliased : Bool) (scalesOf : ℕ → List ℚ) (n : ℕ) :
    (List (List (List ℚ)) × List (List (List ℚ)) × Bool)
      × List (List (List (List ℚ))) :=
  (List.range n).foldl (gridStepA b zp gs scalesOf) ((orgT, orgT, aliased), [])

theorem runGridA_not_aliased (b : ℕ) (zp : Bool) (gs : ℤ)
    (orgT : List (List (List ℚ))) (scalesOf : ℕ → List ℚ) (n : ℕ) :
    runGridA b zp gs orgT false scalesOf n
      = ((orgT, orgT, false),
         (List.range n).map
           (fun k => orgT.map (trialMutate b zp gs (scalesOf k)))) := by
  induction n with
  | zero => rfl
  | succ n ih =>
      unfold runGridA
      rw [List.range_succ, List.foldl_append, List.foldl_cons, List.foldl_nil]
      unfold runGridA at ih
      rw [ih]
      unfold gridStepA
      simp [List.range_succ, List.map_map, trialMutate, Function.comp]

theorem runGridA_aliased (b : ℕ) (zp : Bool) (gs : ℤ)
    (orgT : List (List (List ℚ))) (scalesOf : ℕ → List ℚ) (n : ℕ) :
    runGridA b zp gs orgT true scalesOf (n + 1)
      = ((orgT.map (scaleCols (scalesOf 0)),
          orgT.map (scaleCols (scalesOf 0)), false),
         (List.range (n + 1)).map (fun k =>
           if k = 0 then orgT.map (trialMutate b zp gs (scalesOf 0))
           else (orgT.map (scaleCols (scalesOf 0))).map
             (trialMutate b zp gs (scalesOf k)))) := by
  induction n with
  | zero =>
      unfold runGridA
      simp only [List.range_succ, List.range_zero, List.nil_append,
        List.foldl_cons, List.foldl_nil]
      unfold gridStepA
      simp [List.map_map, trialMutate, Function.comp]
  | succ n ih =>
      unfold runGridA
      rw [List.range_succ, List.foldl_append, List.foldl_cons, List.foldl_nil]
      unfold runGridA at ih
      rw [ih]
      unfold gridStepA
      simp [List.range_succ, List.map_map, trialMutate, Function.comp]

/-- **C5** fails on the code: on the off-CPU path (snapshot copied) the
restore contract holds — every trial observes the trial mutation of the
original snapshot and the final state equals the snapshot — but on the
CPU-resident path (snapshot aliased, `aliased = true`) trial 0's
in-place `mul_` writes through `org_sd`, which freezes at `W * s₀`:
every later trial is scored against the corrupted base, and the final
live state is `W * s₀`, not `W`.  Concretely, with one target linear of
weight `[[1, 2]]` and candidate scale vectors all `[2, 2]` (`w_bit = 2`,
zero-point, whole-row groups), after the 20-trial search the weights
are `[[2, 4]] ≠ [[1, 2]]`, and the leaked trial state differs from the
intended one. -/
theorem grid_search_restore_aliasing (b : ℕ) (zp : Bool) (gs : ℤ)
    (orgT : List (List (List ℚ))) (scalesOf : ℕ → List ℚ) (n : ℕ) :
    runGridA b zp gs orgT false scalesOf n
      = ((orgT, orgT, false),
         (List.range n).map
           (fun k => orgT.map (trialMutate b zp gs (scalesOf k)))) ∧
    runGridA b zp gs orgT true scalesOf (n + 1)
      = ((orgT.map (scaleCols (scalesOf 0)),
          orgT.map (scaleCols (scalesOf 0)), false),
         (List.range (n + 1)).map (fun k =>
           if k = 0 then orgT.map (trialMutate b zp gs (scalesOf 0))
           else (orgT.map (scaleCols (scalesOf 0))).map
             (trialMutate b zp gs (scalesOf k)))) ∧
    (runGridA 2 true 0 [[[1, 2]]] true (fun _ => [2, 2]) 20).1.1 = [[[2, 4]]] ∧
    ([[[2, 4]]] : List (List (List ℚ))) ≠ [[[1, 2]]] ∧
    trialMutate 2 true 0 [2, 2] [[2, 4]] ≠ trialMutate 2 true 0 [2, 2] [[1, 2]] := by
  have hcor : (runGridA 2 true 0 [[[1, 2]]] true (fun _ => [2, 2]) 20).1.1
      = [[[2, 4]]] := by
    rw [runGridA_aliased 2 true 0 [[[1, 2]]] (fun _ => [2, 2]) 19]
    norm_num [scaleCols]
  have eA1 : zpDequant 2 [2, 4] 2 = 2 := by
    norm_num [zpDequant, zpCode, zpZeros, zpScales, amax, amin, Mint, iclamp, roundTE]
  have eA2 : zpDequant 2 [2, 4] 4 = 2 := by
    norm_num [zpDequant, zpCode, zpZeros, zpScales, amax, amin, Mint, iclamp, roundTE]
  have eB1 : zpDequant 2 [4, 8] 4 = 4 := by
    norm_num [zpDequant, zpCode, zpZeros, zpScales, amax, amin, Mint, iclamp, roundTE]
  have eB2 : zpDequant 2 [4, 8] 8 = 4 := by
    norm_num [zpDequant, zpCode, zpZeros, zpScales, amax, amin, Mint, iclamp, roundTE]
  have qA : pseudoQuantizeTensor 2 true 0 [[2, 4]] = [[2, 2]] := by
    simp [pseudoQuantizeTensor, groupRow, pseudoQuantizeGroup, eA1, eA2]
  have qB : pseudoQuantizeTensor 2 true 0 [[4, 8]] = [[4, 4]] := by
    simp [pseudoQuantizeTensor, groupRow, pseudoQuantizeGroup, eB1, eB2]
  have sA : scaleCols [2, 2] [[1, 2]] = [[2, 4]] := by norm_num [scaleCols]
  have sB : scaleCols [2, 2] [[2, 4]] = [[4, 8]] := by norm_num [scaleCols]
  have tA : trialMutate 2 true 0 [2, 2] [[1, 2]] = [[1, 1]] := by
    unfold trialMutate
    rw [sA, qA]
    norm_num [unscaleCols]
  have tB : trialMutate 2 true 0 [2, 2] [[2, 4]] = [[2, 2]] := by
    unfold trialMutate
    rw [sB, qB]
    norm_num [unscaleCols]
  refine ⟨runGridA_not_aliased b zp gs orgT scalesOf n,
    runGridA_aliased b zp gs orgT scalesOf n, hcor, by decide, ?_⟩
  rw [tA, tB]
  decide

/-! ## `_compute_best_scale` selection and failure (lines 374-430, C7)

Losses may be non-finite in the source (`float("inf")` initial best,
overflowing trials); they are modelled as `WithTop ℚ`, with `⊤` standing
for any non-finite value (`inf`/`nan` both fail `loss < best_error`).
The candidate scale vectors are abstracted as a function of the grid
index, since they involve real exponentiation. -/

/-- The running state of the grid search: `best_error = inf`,
`best_ratio = -1`, `best_scales = None`, `history = []` initially. -/
structure GridState where
  bestErr : WithTop ℚ
  bestRatio : ℚ
  bestScales : Option (List ℚ)
  history : List (WithTop ℚ)

/-- Initial grid-search state. -/
def gridStart : GridState := ⟨⊤, -1, none, []⟩

/-- One grid iteration: append the trial's loss to the history, and
take the candidate iff `loss < best_error` (ratio `k/n_grid`, `n_grid =
20`). -/
def gridUpdate (loss : ℕ → WithTop ℚ) (scalesOf : ℕ → List ℚ)
    (st : GridState) (k : ℕ) : GridState :=
  if loss k < st.bestErr then
    { bestErr := loss k, bestRatio := (k : ℚ) / 20,
      bestScales := some (scalesOf k), history := st.history ++ [loss k] }
  else
    { st with history := st.history ++ [loss k] }

/-- The grid loop over `n` candidate ratios. -/
def gridLoop (loss : ℕ → WithTop ℚ) (scalesOf : ℕ → List ℚ) (n : ℕ) : GridState :=
  (List.range n).foldl (gridUpdate loss scalesOf) gridStart

/-- `_compute_best_scale` after the loop: `if best_ratio == -1:
logging.debug(history); raise` — the error carries the full loss
history and no fallback scales — otherwise return `best_scales`. -/
def computeBestScale (loss : ℕ → WithTop ℚ) (scalesOf : ℕ → List ℚ) :
    Except (List (WithTop ℚ)) (List ℚ) :=
  let st := gridLoop loss scalesOf 20
  if st.bestRatio = -1 then .error st.history else .ok (st.bestScales.getD [])

theorem gridLoop_succ (loss : ℕ → WithTop ℚ) (scalesOf : ℕ → List ℚ) (n : ℕ) :
    gridLoop loss scalesOf (n + 1)
      = gridUpdate loss scalesOf (gridLoop loss scalesOf n) n := by
  unfold gridLoop
  rw [List.range_succ, List.foldl_append, List.foldl_cons, List.foldl_nil]

theorem gridLoop_invariant (loss : ℕ → WithTop ℚ) (scalesOf : ℕ → List ℚ) (n : ℕ) :
    (gridLoop loss scalesOf n).history = (List.range n).map loss ∧
    ((∀ k, k < n → loss k = ⊤) →
      (gridLoop loss scalesOf n).bestErr = ⊤ ∧
      (gridLoop loss scalesOf n).bestRatio = -1 ∧
      (gridLoop loss scalesOf n).bestScales = none) ∧
    ((∃ k, k < n ∧ loss k ≠ ⊤) →
      ∃ k, k < n ∧ (gridLoop loss scalesOf n).bestRatio = (k : ℚ) / 20 ∧
        (gridLoop loss scalesOf n).bestScales = some (scalesOf k) ∧
        (gridLoop loss scalesOf n).bestErr = loss k ∧ loss k ≠ ⊤ ∧
        ∀ j, j < n → loss k ≤ loss j) := by
  induction n with
  | zero =>
      refine ⟨rfl, fun _ => ⟨rfl, rfl, rfl⟩, ?_⟩
      rintro ⟨k, hk, -⟩
      omega
  | succ n ih =>
      obtain ⟨ihh, ihtop, ihex⟩ := ih
      rw [gridLoop_succ]
      unfold gridUpdate
      refine ⟨?_, ?_, ?_⟩
      · split <;>
          simp only [List.range_succ, List.map_append, List.map_cons,
            List.map_nil, ihh]
      · intro hall
        have hn : loss n = ⊤ := hall n (by omega)
        have htop := ihtop (fun k hk => hall k (by omega))
        rw [if_neg (by rw [hn, htop.1]; exact lt_irrefl ⊤)]
        exact ⟨htop.1, htop.2.1, htop.2.2⟩
      · rintro ⟨k0, hk0, hk0ne⟩
        by_cases hupd : loss n < (gridLoop loss scalesOf n).bestErr
        · rw [if_pos hupd]
          refine ⟨n, by omega, rfl, rfl, rfl,
            (lt_top_iff_ne_top).mp (lt_of_lt_of_le hupd le_top), ?_⟩
          intro j hj
          rcases Nat.lt_succ_iff_lt_or_eq.mp hj with hj' | rfl
          · by_cases hall : ∀ k, k < n → loss k = ⊤
            · rw [hall j hj']
              exact le_top
            · push_neg at hall
              obtain ⟨k, hk, hkb, hkS, hkE, hkne, hkle⟩ :=
                ihex ⟨hall.choose, hall.choose_spec⟩
              calc loss n ≤ loss k := le_of_lt (by rw [← hkE]; exact hupd)
              _ ≤ loss j := hkle j hj'
          · exact le_refl _
        · rw [if_neg hupd]
          have hex : ∃ k, k < n ∧ loss k ≠ ⊤ := by
            rcases Nat.lt_succ_iff_lt_or_eq.mp hk0 with hk0' | rfl
            · exact ⟨k0, hk0', hk0ne⟩
            · by_contra hnone
              push_neg at hnone
              have htop := ihtop (fun k hk => hnone k hk)
              rw [htop.1] at hupd
              exact hupd ((lt_top_iff_ne_top).mpr hk0ne)
          obtain ⟨k, hk, hkb, hkS, hkE, hkne, hkle⟩ := ihex hex
          refine ⟨k, by omega, hkb, hkS, hkE, hkne, ?_⟩
          intro j hj
          rcases Nat.lt_succ_iff_lt_or_eq.mp hj with hj' | rfl
          · exact hkle j hj'
          · rw [← hkE]
            exact not_lt.mp hupd

/-- **C7**: `_compute_best_scale` raises exactly when no candidate ever
records a loss below the `inf` initializer (all 20 losses non-finite);
the raise carries the full per-candidate loss history and no fallback
scales, and otherwise the returned vector is that of a lowest-loss
candidate. -/
theorem compute_best_scale_spec (loss : ℕ → WithTop ℚ) (scalesOf : ℕ → List ℚ) :
    ((∀ k, k < 20 → loss k = ⊤) →
      computeBestScale loss scalesOf = .error ((List.range 20).map loss)) ∧
    ((∃ k, k < 20 ∧ loss k ≠ ⊤) →
      ∃ k, k < 20 ∧ computeBestScale loss scalesOf = .ok (scalesOf k) ∧
        ∀ j, j < 20 → loss k ≤ loss j) := by
  obtain ⟨hh, htop, hex⟩ := gridLoop_invariant loss scalesOf 20
  constructor
  · intro hall
    obtain ⟨hE, hR, hS⟩ := htop hall
    unfold computeBestScale
    rw [if_pos hR, hh]
  · intro hsome
    obtain ⟨k, hk, hkb, hkS, hkE, hkne, hkle⟩ := hex hsome
    refine ⟨k, hk, ?_, hkle⟩
    unfold computeBestScale
    have hno : ¬ ((gridLoop loss scalesOf 20).bestRatio = -1) := by
      rw [hkb]
      intro h
      have hk0 : (0 : ℚ) ≤ (k : ℚ) := Nat.cast_nonneg k
      have : (k : ℚ) = -20 := by linarith [div_eq_iff (by norm_num : (20:ℚ) ≠ 0) |>.mp h]
      linarith
    rw [if_neg hno, hkS]
    rfl

/-- Witness for C7, failure side: all-non-finite losses raise with the
full history and, success side: a single finite loss at index 3 wins. -/
theorem compute_best_scale_spec_witness :
    computeBestScale (fun _ => (⊤ : WithTop ℚ)) (fun _ => [1])
        = .error ((List.range 20).map (fun _ => (⊤ : WithTop ℚ))) ∧
    ∃ k : ℕ, k < 20 ∧
      computeBestScale (fun j => if j = 3 then ((5 : ℚ) : WithTop ℚ) else ⊤)
          (fun j => [(j : ℚ)]) = .ok [(k : ℚ)] ∧
      ∀ j, j < 20 →
        (if k = 3 then ((5 : ℚ) : WithTop ℚ) else ⊤)
          ≤ (if j = 3 then ((5 : ℚ) : WithTop ℚ) else ⊤) :=
  ⟨(compute_best_scale_spec (fun _ => ⊤) (fun _ => [1])).1 (fun _ _ => rfl),
   (compute_best_scale_spec (fun j => if j = 3 then ((5 : ℚ) : WithTop ℚ) else ⊤)
      (fun j => [(j : ℚ)])).2 ⟨3, by norm_num, by simp⟩⟩

/-! ## Scale normalization (lines 392-401, C8)

`scales = scales / (scales.max() * scales.min()).sqrt()`.  The square
root of the (positive) product `max * min` is abstracted as any `r > 0`
with `r^2 = max * min`, since `sqrt` leaves the rationals; the
pre-normalization entries are bounded below by the `clamp(min=1e-4)`
of lines 393/395. -/

/-- The normalization `scales / sqrt(max(scales) * min(scales))`, with
the square root value passed explicitly. -/
def normalizeScales (s : List ℚ) (r : ℚ) : List ℚ := s.map (fun v => v / r)

theorem amax_map_div (r : ℚ) (hr : 0 < r) :
    ∀ l : List ℚ, amax (l.map (fun v => v / r)) = amax l / r
  | [] => by simp [amax]
  | [x] => by simp [amax]
  | x :: y :: t => by
      have ih := amax_map_div r hr (y :: t)
      simp only [List.map_cons] at ih ⊢
      rw [amax, amax, ih, max_div_div_right hr.le]

theorem amin_map_div (r : ℚ) (hr : 0 < r) :
    ∀ l : List ℚ, amin (l.map (fun v => v / r)) = amin l / r
  | [] => by simp [amin]
  | [x] => by simp [amin]
  | x :: y :: t => by
      have ih := amin_map_div r hr (y :: t)
      simp only [List.map_cons] at ih ⊢
      rw [amin, amin, ih, min_div_div_right hr.le]

/-- **C8**: after the normalization `scale / sqrt(max*min)` the product
of the maximal and minimal entry is exactly `1` (so certainly within the
1e-3 tolerance), and every entry is strictly positive — the candidate
entries enter the normalization clamped to at least `1e-4`, and over
exact arithmetic no non-finite entry (which line 400/401 would replace
by 1) can arise. -/
theorem scale_normalization_invariant (s : List ℚ) (hne : s ≠ [])
    (hpos : ∀ v ∈ s, 1/10000 ≤ v) (r : ℚ) (hr : 0 < r)
    (hr2 : r ^ 2 = amax s * amin s) :
    amax (normalizeScales s r) * amin (normalizeScales s r) = 1 ∧
    ∀ v ∈ normalizeScales s r, 0 < v := by
  constructor
  · unfold normalizeScales
    rw [amax_map_div r hr s, amin_map_div r hr s, div_mul_div_comm, ← hr2]
    rw [pow_two, div_self (by positivity)]
  · intro v hv
    obtain ⟨u, hu, rfl⟩ := List.mem_map.mp hv
    have h1 : (0 : ℚ) < 1/10000 := by norm_num
    exact div_pos (lt_of_lt_of_le h1 (hpos u hu)) hr

/-- Witness for C8 on the pre-normalization vector `[4, 1]` whose
`max * min = 4` has the exact square root `2`. -/
theorem scale_normalization_invariant_witness :
    amax (normalizeScales [4, 1] 2) * amin (normalizeScales [4, 1] 2) = 1 ∧
    ∀ v ∈ normalizeScales [4, 1] 2, 0 < v :=
  scale_normalization_invariant [4, 1] (by decide)
    (by intro v hv; rcases List.mem_pair.mp hv with rfl | rfl <;> norm_num)
    2 (by norm_num) (by norm_num [amax, amin])

end Awq
